import Mathlib

/-!
Shallow embedding of the `mkts` terminal dashboard
(`src/crates/app/src/main.rs`) and proofs of its specified properties.

Modelling conventions:
* `f64` quote values are modelled as exact rationals `ℚ`;
* the process-wide random generator is modelled as explicitly passed
  draw parameters (`noise : Nat → ℚ` for seeding, `(delta, volInc)`
  pairs for price updates);
* strings that the code manipulates character by character (the banner)
  are modelled as `List Char`; other strings stay `String`;
* the `usize` banner offset is a `Nat` with explicit saturation at
  `2 ^ 64 - 1` (`usize::saturating_add` on a 64-bit platform).
-/

/-- Constant `HISTORY_LEN` from `main.rs`. -/
def HISTORY_LEN : Nat := 64

/-- Largest value of the 64-bit `usize` holding the banner offset. -/
def USIZE_MAX : Nat := 2 ^ 64 - 1

/-- The `Stock` struct from `main.rs`. -/
structure Stock where
  symbol : String
  name : String
  price : ℚ
  prev_close : ℚ
  change : ℚ
  change_pct : ℚ
  volume : ℚ
  vwap : ℚ
  «open» : ℚ
  day_range_low : ℚ
  day_range_high : ℚ
  history : List ℚ
  deriving DecidableEq

/-- The seeding walk in `Stock::seed`: repeatedly multiply the running
value by `1.0 + ((rand::random::<f64>() - 0.5) * 0.003)` and record each
step.  `noise n` stands for the `n`-th draw of `rand::random::<f64>()`. -/
def seedWalk (noise : Nat → ℚ) (val : ℚ) : Nat → List ℚ
  | 0 => []
  | n + 1 =>
    let v := val * (1 + (noise 0 - 1/2) * (3/1000))
    v :: seedWalk (fun i => noise (i + 1)) v n

/-- Function `Stock::seed` from `main.rs`. -/
def Stock.seed (symbol name : String) (price : ℚ) (noise : Nat → ℚ) : Stock :=
  let history := seedWalk noise price HISTORY_LEN
  let prev_close := price * (995/1000)
  let openPx := price * (99/100)
  let day_range_low := price * (98/100)
  let day_range_high := price * (102/100)
  let change := price - prev_close
  let change_pct := change / prev_close * 100
  { symbol := symbol
    name := name
    price := price
    prev_close := prev_close
    change := change
    change_pct := change_pct
    volume := 2500000
    vwap := (price + openPx) / 2
    «open» := openPx
    day_range_low := day_range_low
    day_range_high := day_range_high
    history := history }

/-- The per-stock body of `App::update_prices`: one simulation advance of
a single instrument, with the two random draws (`delta` from
`gen_range(-0.8..0.9)` and `volInc` from `gen_range(20_000.0..180_000.0)`)
passed explicitly.  `Vec::remove(0)` on the history is `List.tail`. -/
def Stock.update (s : Stock) (delta volInc : ℚ) : Stock :=
  let price := max (s.price + delta) 1
  let pushed := s.history ++ [price]
  let history := if HISTORY_LEN < pushed.length then pushed.tail else pushed
  let change := price - s.prev_close
  { s with
    price := price
    history := history
    change := change
    change_pct := change / s.prev_close * 100
    volume := s.volume + volInc
    vwap := (s.vwap + price) / 2
    day_range_low := min s.day_range_low price
    day_range_high := max s.day_range_high price }

/-- Repeated simulation advances of a single stock, one `(delta, volInc)`
draw pair per advance. -/
def Stock.updMany (s : Stock) (ds : List (ℚ × ℚ)) : Stock :=
  ds.foldl (fun t d => t.update d.1 d.2) s

/-- The successive prices produced by `Stock.updMany`, in the order they
are pushed onto the history buffer. -/
def Stock.pricesTrace (s : Stock) : List (ℚ × ℚ) → List ℚ
  | [] => []
  | d :: ds =>
    let s1 := s.update d.1 d.2
    s1.price :: s1.pricesTrace ds

/-- The `App` struct from `main.rs` (the `rand::rngs::ThreadRng` field is
replaced by explicit draw parameters on the mutating operations). -/
structure App where
  stocks : List Stock
  selected : Nat
  headlines : List String
  banner : List (List Char)
  banner_offset : Nat
  user : String
  api_key : String
  explorer_items : List String
  explorer_selected : Nat
  session : String
  deriving DecidableEq

/-- Constructor `App::new` from `main.rs`; `noise` stands for the stream of
`rand::random::<f64>()` draws consumed by the eight `Stock::seed` calls. -/
def App.new (noise : Nat → ℚ) : App :=
  { stocks :=
      [Stock.seed "AAPL" "Apple Inc." (18242/100) noise,
       Stock.seed "MSFT" "Microsoft" (41318/100) noise,
       Stock.seed "NVDA" "NVIDIA" (73844/100) noise,
       Stock.seed "TSLA" "Tesla" (19608/100) noise,
       Stock.seed "AMZN" "Amazon" (17152/100) noise,
       Stock.seed "META" "Meta Platforms" (48536/100) noise,
       Stock.seed "JPM" "JPMorgan" (17822/100) noise,
       Stock.seed "XOM" "Exxon Mobil" (10426/100) noise]
    selected := 0
    headlines :=
      ["RATES: CPI cools, traders price first cut in Q3",
       "EARNINGS: Cloud spend accelerates across mega-cap",
       "ENERGY: OPEC+ signals steady supply through summer",
       "FX: USD softer as risk appetite improves"]
    banner :=
      ["MARKET: Futures edge higher ahead of Fed minutes".toList,
       "TECH: Semis lead gains as AI capex expands".toList,
       "MACRO: Treasury yields slip, curve steepens".toList]
    banner_offset := 0
    user := "guest"
    api_key := ""
    explorer_items := ["Stocks", "Bonds", "Crypto", "Commodities", "FX", "News"]
    explorer_selected := 0
    session := "OPEN" }

/-- Method `App::select_next`: advance the selection, clamped at `count - 1`
(`usize::saturating_sub` is `Nat` subtraction). -/
def App.select_next (a : App) : App :=
  { a with selected := min (a.selected + 1) (a.stocks.length - 1) }

/-- Method `App::select_prev`: move the selection back, clamped at `0`. -/
def App.select_prev (a : App) : App :=
  if a.selected > 0 then { a with selected := a.selected - 1 } else a

/-- Method `App::reset_selection`. -/
def App.reset_selection (a : App) : App :=
  { a with selected := 0 }

/-- Method `App::current`: indexing `self.stocks[self.selected]`, with the
panic on an out-of-range index modelled as `none`. -/
def App.current (a : App) : Option Stock :=
  a.stocks[a.selected]?

/-- The three-space separator `format!("{}   ", s)` appends to every
banner line. -/
def bannerSep : List Char := [' ', ' ', ' ']

/-- The `joined` string built at the start of `App::banner_text`. -/
def joinedBanner (banner : List (List Char)) : List Char :=
  (banner.map (fun s => s ++ bannerSep)).flatten

/-- Method `App::banner_text` from `main.rs`: for a non-empty joined string,
`chars().cycle().skip(offset % len).take(len)` is left rotation by
`offset % len`, and `rotated.push(' ')` appends one final space. -/
def App.banner_text (a : App) : List Char :=
  let joined := joinedBanner a.banner
  if joined.isEmpty then "NO HEADLINES".toList
  else
    let len := joined.length
    let off := a.banner_offset % len
    (joined.drop off ++ joined.take off) ++ [' ']

/-- Method `App::advance_banner`: `usize::saturating_add(1)` when the banner
source is non-empty. -/
def App.advance_banner (a : App) : App :=
  if a.banner.isEmpty then a
  else { a with banner_offset := min (a.banner_offset + 1) USIZE_MAX }

/-- The loop body of `App::update_prices`, threading the index into the
draw stream: stock `i` consumes draw `draw i`. -/
def updateStocks (draw : Nat → ℚ × ℚ) : Nat → List Stock → List Stock
  | _, [] => []
  | i, s :: rest => s.update (draw i).1 (draw i).2 :: updateStocks draw (i + 1) rest

/-- Method `App::update_prices`: advance every stock once, with the random
draws of this tick passed as `draw`. -/
def App.update_prices (a : App) (draw : Nat → ℚ × ℚ) : App :=
  { a with stocks := updateStocks draw 0 a.stocks }

/-- Any number of `App::update_prices` calls, one draw stream per call. -/
def App.simulate (a : App) (draws : List (Nat → ℚ × ℚ)) : App :=
  draws.foldl App.update_prices a

/-- The key codes `handle_key` can receive (the `crossterm` variants the
match arms mention, plus representatives of the ignored ones). -/
inductive KeyCode where
  | char : Char → KeyCode
  | down
  | up
  | left
  | right
  | enter
  | esc
  | backspace
  deriving DecidableEq

/-- Function `handle_key` from `main.rs`: returns the updated app and the
"should quit" flag. -/
def handle_key (a : App) (code : KeyCode) : App × Bool :=
  if code = .char 'q' then (a, true)
  else if code = .char 'j' ∨ code = .down then (a.select_next, false)
  else if code = .char 'k' ∨ code = .up then (a.select_prev, false)
  else if code = .char 'r' then (a.reset_selection, false)
  else (a, false)

/-- The `fold(f64::INFINITY, f64::min)` over a non-empty history `v :: vs`. -/
def minVal (v : ℚ) (vs : List ℚ) : ℚ := vs.foldl min v

/-- The `fold(f64::NEG_INFINITY, f64::max)` over a non-empty history `v :: vs`. -/
def maxVal (v : ℚ) (vs : List ℚ) : ℚ := vs.foldl max v

/-- The `span` local of `normalize_history`. -/
def spanVal (v : ℚ) (vs : List ℚ) : ℚ :=
  if maxVal v vs - minVal v vs ≤ 1/10000 then 1 else maxVal v vs - minVal v vs

/-- Function `normalize_history` from `main.rs`; the `as u64` cast is `Int.toNat`
of the floor (the value is provably non-negative wherever it is taken). -/
def normalize_history : List ℚ → List Nat
  | [] => [0]
  | v :: vs =>
    (v :: vs).map (fun x => (⌊(x - minVal v vs) / spanVal v vs * 100⌋).toNat + 1)

/-- The day-range gauge ratio computed in `render_quote`, including the
`clamp(0.0, 1.0)` applied at the `.ratio(...)` call site. -/
def gauge_ratio (price low high : ℚ) : ℚ :=
  let raw := if high - low ≤ 0 then 0 else (price - low) / (high - low)
  min (max raw 0) 1

/-- C6: the day-range gauge ratio is always in `[0,1]`; it is `0` for a
degenerate range and the clamped quotient for a proper range. -/
theorem c6_gauge_ratio_bounds (price low high : ℚ) :
    0 ≤ gauge_ratio price low high ∧ gauge_ratio price low high ≤ 1 ∧
    (high - low ≤ 0 → gauge_ratio price low high = 0) ∧
    (0 < high - low →
      gauge_ratio price low high = min (max ((price - low) / (high - low)) 0) 1) := by
  refine ⟨le_min (le_max_right _ _) zero_le_one, min_le_right _ _, ?_, ?_⟩
  · intro h
    simp only [gauge_ratio]
    rw [if_pos h]
    simp
  · intro h
    simp only [gauge_ratio]
    rw [if_neg (not_le.mpr h)]

/-- Witness for C6 at a concrete degenerate range. -/
theorem c6_gauge_ratio_bounds_witness : gauge_ratio 5 3 3 = 0 :=
  (c6_gauge_ratio_bounds 5 3 3).2.2.1 (by norm_num)

/-- C10: the concrete seeding example at price `100.0`, for any noise
stream (the derived fields do not depend on the noise). -/
theorem c10_seed_example (noise : Nat → ℚ) :
    (Stock.seed "AAPL" "Apple Inc." 100 noise).prev_close = 995/10 ∧
    (Stock.seed "AAPL" "Apple Inc." 100 noise).«open» = 99 ∧
    (Stock.seed "AAPL" "Apple Inc." 100 noise).day_range_low = 98 ∧
    (Stock.seed "AAPL" "Apple Inc." 100 noise).day_range_high = 102 ∧
    (Stock.seed "AAPL" "Apple Inc." 100 noise).change = 1/2 ∧
    (Stock.seed "AAPL" "Apple Inc." 100 noise).change_pct = 100/199 ∧
    |(Stock.seed "AAPL" "Apple Inc." 100 noise).change_pct - 5025/10000| < 1/10000 := by
  refine ⟨by norm_num [Stock.seed], by norm_num [Stock.seed], by norm_num [Stock.seed],
    by norm_num [Stock.seed], by norm_num [Stock.seed], by norm_num [Stock.seed], ?_⟩
  have h : (Stock.seed "AAPL" "Apple Inc." 100 noise).change_pct = 100/199 := by
    norm_num [Stock.seed]
  rw [h, show (100/199 - 5025/10000 : ℚ) = 1/79600 by norm_num,
    abs_of_pos (by norm_num)]
  norm_num

/-- C9: `advance_banner` adds exactly `1` to the offset with saturating
arithmetic when the banner source is non-empty, touches nothing else,
and is the identity when the banner source is empty. -/
theorem c9_advance_banner_saturating (a : App) :
    (a.banner ≠ [] →
      (a.advance_banner).banner_offset = min (a.banner_offset + 1) USIZE_MAX ∧
      (a.banner_offset < USIZE_MAX →
        (a.advance_banner).banner_offset = a.banner_offset + 1) ∧
      (USIZE_MAX ≤ a.banner_offset →
        (a.advance_banner).banner_offset = USIZE_MAX) ∧
      (a.advance_banner).banner = a.banner ∧
      (a.advance_banner).stocks = a.stocks ∧
      (a.advance_banner).selected = a.selected) ∧
    (a.banner = [] → a.advance_banner = a) := by
  constructor
  · intro h
    have hne : a.banner.isEmpty = false := by
      cases hb : a.banner with
      | nil => exact absurd hb h
      | cons x xs => rfl
    have hab : a.advance_banner =
        { a with banner_offset := min (a.banner_offset + 1) USIZE_MAX } := by
      simp [App.advance_banner, hne]
    rw [hab]
    refine ⟨rfl, ?_, ?_, rfl, rfl, rfl⟩
    · intro hlt
      exact Nat.min_eq_left (Nat.succ_le_of_lt hlt)
    · intro hge
      exact Nat.min_eq_right (Nat.le_succ_of_le hge)
  · intro h
    simp [App.advance_banner, h]

/-- Witness for C9: one tick from the freshly constructed app. -/
theorem c9_advance_banner_saturating_witness :
    ((App.new (fun _ => 1/2)).advance_banner).banner_offset =
      (App.new (fun _ => 1/2)).banner_offset + 1 :=
  ((c9_advance_banner_saturating (App.new (fun _ => 1/2))).1
      (by simp [App.new])).2.1
    (by norm_num [App.new, USIZE_MAX])

/-- C8: `handle_key` quits exactly on `'q'`, binds `'j'`/Down to
`select_next`, `'k'`/Up to `select_prev`, `'r'` to `reset_selection`,
and leaves the state untouched (without quitting) on every other key. -/
theorem c8_handle_key_bindings (a : App) (code : KeyCode) :
    ((handle_key a code).2 = true ↔ code = KeyCode.char 'q') ∧
    handle_key a (KeyCode.char 'q') = (a, true) ∧
    handle_key a (KeyCode.char 'j') = (a.select_next, false) ∧
    handle_key a KeyCode.down = (a.select_next, false) ∧
    handle_key a (KeyCode.char 'k') = (a.select_prev, false) ∧
    handle_key a KeyCode.up = (a.select_prev, false) ∧
    handle_key a (KeyCode.char 'r') = (a.reset_selection, false) ∧
    (code ∉ ([KeyCode.char 'q', KeyCode.char 'j', KeyCode.char 'k', KeyCode.char 'r',
        KeyCode.down, KeyCode.up] : List KeyCode) →
      handle_key a code = (a, false)) := by
  refine ⟨?_, by simp [handle_key], by simp [handle_key], by simp [handle_key],
    by simp [handle_key], by simp [handle_key], by simp [handle_key], ?_⟩
  · by_cases hq : code = KeyCode.char 'q'
    · subst hq; simp [handle_key]
    · simp only [handle_key, if_neg hq]
      constructor
      · intro h2
        exfalso
        revert h2
        split
        · simp
        · split
          · simp
          · split <;> simp
      · intro h; exact absurd h hq
  · intro hmem
    simp only [List.mem_cons, List.mem_singleton, not_or] at hmem
    obtain ⟨hq, hj, hk, hr, hd, hu⟩ := hmem
    simp [handle_key, hq, hj, hk, hr, hd, hu]

/-- Witness for C8: an unbound key (Esc) leaves the app unchanged and
does not quit. -/
theorem c8_handle_key_bindings_witness :
    handle_key (App.new (fun _ => 1/2)) KeyCode.esc = (App.new (fun _ => 1/2), false) :=
  (c8_handle_key_bindings (App.new (fun _ => 1/2)) KeyCode.esc).2.2.2.2.2.2.2
    (by decide)

/-- A left fold of `min` never exceeds its initial accumulator. -/
theorem foldl_min_le_init (l : List ℚ) (a : ℚ) : l.foldl min a ≤ a := by
  induction l generalizing a with
  | nil => exact le_refl a
  | cons b l ih =>
    exact le_trans (ih (min a b)) (min_le_left a b)

/-- A left fold of `min` is below every list element. -/
theorem foldl_min_le_mem (l : List ℚ) (a : ℚ) : ∀ x ∈ l, l.foldl min a ≤ x := by
  induction l generalizing a with
  | nil => intro x hx; exact absurd hx (List.not_mem_nil x)
  | cons b l ih =>
    intro x hx
    rcases List.mem_cons.mp hx with h | h
    · subst h
      exact le_trans (foldl_min_le_init l (min a x)) (min_le_right a x)
    · exact ih (min a b) x h

/-- A left fold of `max` is at least its initial accumulator. -/
theorem le_foldl_max_init (l : List ℚ) (a : ℚ) : a ≤ l.foldl max a := by
  induction l generalizing a with
  | nil => exact le_refl a
  | cons b l ih =>
    exact le_trans (le_max_left a b) (ih (max a b))

/-- A left fold of `max` is above every list element. -/
theorem le_foldl_max_mem (l : List ℚ) (a : ℚ) : ∀ x ∈ l, x ≤ l.foldl max a := by
  induction l generalizing a with
  | nil => intro x hx; exact absurd hx (List.not_mem_nil x)
  | cons b l ih =>
    intro x hx
    rcases List.mem_cons.mp hx with h | h
    · subst h
      exact le_trans (le_max_right a x) (le_foldl_max_init l (max a x))
    · exact ih (max a b) x h

/-- Value `minVal` is below every element of `v :: vs`. -/
theorem minVal_le (v : ℚ) (vs : List ℚ) : ∀ x ∈ v :: vs, minVal v vs ≤ x := by
  intro x hx
  rcases List.mem_cons.mp hx with h | h
  · subst h; exact foldl_min_le_init vs x
  · exact foldl_min_le_mem vs v x h

/-- Value `maxVal` is above every element of `v :: vs`. -/
theorem le_maxVal (v : ℚ) (vs : List ℚ) : ∀ x ∈ v :: vs, x ≤ maxVal v vs := by
  intro x hx
  rcases List.mem_cons.mp hx with h | h
  · subst h; exact le_foldl_max_init vs x
  · exact le_foldl_max_mem vs v x h

/-- The `span` local of `normalize_history` is strictly positive: the
division in the normalization never divides by zero. -/
theorem spanVal_pos (v : ℚ) (vs : List ℚ) : 0 < spanVal v vs := by
  unfold spanVal
  split
  · exact zero_lt_one
  · rename_i hgt
    have h1 : (1/10000 : ℚ) < maxVal v vs - minVal v vs := not_le.mp hgt
    linarith

/-- Each normalized sample is at most `101`. -/
theorem normalize_entry_le (v : ℚ) (vs : List ℚ) (x : ℚ) (hx : x ∈ v :: vs) :
    (⌊(x - minVal v vs) / spanVal v vs * 100⌋).toNat + 1 ≤ 101 := by
  have hmin : minVal v vs ≤ x := minVal_le v vs x hx
  have hmax : x ≤ maxVal v vs := le_maxVal v vs x hx
  have hval : (x - minVal v vs) / spanVal v vs * 100 ≤ 100 := by
    unfold spanVal
    split
    · rename_i hsmall
      have h1 : x - minVal v vs ≤ 1/10000 := by linarith
      have h2 : 0 ≤ x - minVal v vs := by linarith
      rw [div_one]
      nlinarith
    · rename_i hgt
      have hspan : (0:ℚ) < maxVal v vs - minVal v vs := by
        have := not_le.mp hgt
        linarith [show (0:ℚ) < 1/10000 by norm_num]
      have h1 : (x - minVal v vs) / (maxVal v vs - minVal v vs) ≤ 1 :=
        (div_le_one hspan).mpr (by linarith)
      nlinarith
  have hfloor : ⌊(x - minVal v vs) / spanVal v vs * 100⌋ ≤ 100 := by
    have := Int.floor_le_floor hval
    simpa using this
  have htn : (⌊(x - minVal v vs) / spanVal v vs * 100⌋).toNat ≤ 100 := by
    omega
  omega

/-- Folding `min` over a constant list returns the constant. -/
theorem foldl_min_replicate (k : Nat) (c : ℚ) :
    (List.replicate k c).foldl min c = c := by
  induction k with
  | zero => rfl
  | succ k ih => simpa [List.replicate_succ, min_self] using ih

/-- Folding `max` over a constant list returns the constant. -/
theorem foldl_max_replicate (k : Nat) (c : ℚ) :
    (List.replicate k c).foldl max c = c := by
  induction k with
  | zero => rfl
  | succ k ih => simpa [List.replicate_succ, max_self] using ih

/-- C5: `normalize_history` is total and never divides by zero: an empty
history gives the single sample `[0]`, a non-empty history has a strictly
positive span and normalizes every sample into `[1, 101]`, and a history
of identical values gives the constant series of `1`s. -/
theorem c5_normalize_history_total (history : List ℚ) :
    (history = [] → normalize_history history = [0]) ∧
    (∀ v vs, history = v :: vs →
      0 < spanVal v vs ∧
      (normalize_history history).length = history.length ∧
      ∀ n ∈ normalize_history history, 1 ≤ n ∧ n ≤ 101) ∧
    (∀ c k, history = List.replicate (k + 1) c →
      normalize_history history = List.replicate (k + 1) 1) := by
  refine ⟨?_, ?_, ?_⟩
  · intro h; subst h; rfl
  · intro v vs h
    subst h
    refine ⟨spanVal_pos v vs, by simp [normalize_history], ?_⟩
    intro n hn
    simp only [normalize_history, List.mem_map] at hn
    obtain ⟨x, hx, hnx⟩ := hn
    subst hnx
    exact ⟨Nat.le_add_left 1 _, normalize_entry_le v vs x hx⟩
  · intro c k h
    subst h
    rw [List.replicate_succ, normalize_history]
    have hmin : minVal c (List.replicate k c) = c := foldl_min_replicate k c
    have hmax : maxVal c (List.replicate k c) = c := foldl_max_replicate k c
    have hspan : spanVal c (List.replicate k c) = 1 := by
      unfold spanVal
      rw [hmin, hmax]
      norm_num
    rw [hmin, hspan]
    rw [← List.replicate_succ]
    rw [List.map_replicate]
    norm_num

/-- Witness for C5: a constant three-sample history normalizes to all
`1`s, and a generic two-sample history lands in `[1, 101]`. -/
theorem c5_normalize_history_total_witness :
    normalize_history [2, 2, 2] = [1, 1, 1] ∧
    ∀ n ∈ normalize_history [1, 3], 1 ≤ n ∧ n ≤ 101 :=
  ⟨by simpa using (c5_normalize_history_total [2, 2, 2]).2.2 2 2 (by decide),
   ((c5_normalize_history_total [1, 3]).2.1 1 [3] rfl).2.2⟩

/-- The three selection mutations the key handler can trigger. -/
inductive SelOp where
  | next
  | prev
  | reset
  deriving DecidableEq

/-- Apply one selection operation. -/
def App.applySel (a : App) : SelOp → App
  | .next => a.select_next
  | .prev => a.select_prev
  | .reset => a.reset_selection

/-- Apply a sequence of selection operations, left to right. -/
def App.applySels (a : App) (ops : List SelOp) : App :=
  ops.foldl App.applySel a

/-- Selection operations never touch the stock list. -/
theorem applySel_stocks (a : App) (op : SelOp) : (a.applySel op).stocks = a.stocks := by
  cases op with
  | next => rfl
  | prev =>
    show (a.select_prev).stocks = a.stocks
    unfold App.select_prev
    by_cases hp : a.selected > 0
    · rw [if_pos hp]
    · rw [if_neg hp]
  | reset => rfl

/-- One selection operation preserves the selection bound. -/
theorem applySel_selected_inv (a : App) (op : SelOp)
    (h : a.selected < a.stocks.length ∨ (a.stocks.length = 0 ∧ a.selected = 0)) :
    (a.applySel op).selected < a.stocks.length ∨
      (a.stocks.length = 0 ∧ (a.applySel op).selected = 0) := by
  cases op with
  | next =>
    have hsel : (a.applySel SelOp.next).selected =
        min (a.selected + 1) (a.stocks.length - 1) := rfl
    rw [hsel, Nat.min_def]
    split <;> omega
  | prev =>
    by_cases hp : a.selected > 0
    · have hsel : (a.applySel SelOp.prev).selected = a.selected - 1 := by
        show (a.select_prev).selected = _
        unfold App.select_prev
        rw [if_pos hp]
      rw [hsel]; omega
    · have hsel : (a.applySel SelOp.prev).selected = a.selected := by
        show (a.select_prev).selected = _
        unfold App.select_prev
        rw [if_neg hp]
      rw [hsel]; omega
  | reset =>
    have hsel : (a.applySel SelOp.reset).selected = 0 := rfl
    rw [hsel]; omega

/-- Any sequence of selection operations preserves the selection bound
and the stock list. -/
theorem applySels_selected_inv (a : App) (ops : List SelOp)
    (h : a.selected < a.stocks.length ∨ (a.stocks.length = 0 ∧ a.selected = 0)) :
    ((a.applySels ops).selected < a.stocks.length ∨
      (a.stocks.length = 0 ∧ (a.applySels ops).selected = 0)) ∧
    (a.applySels ops).stocks = a.stocks := by
  induction ops generalizing a with
  | nil => exact ⟨h, rfl⟩
  | cons op ops ih =>
    have hs := applySel_stocks a op
    have hstep := applySel_selected_inv a op h
    have hrec := ih (a.applySel op) (by rw [hs]; exact hstep)
    have hsels : a.applySels (op :: ops) = (a.applySel op).applySels ops := rfl
    rw [hs] at hrec
    rw [hsels]
    exact hrec

/-- C4: from any in-range (or empty-list) starting state, every sequence
of next/prev/reset calls keeps the selection in `[0, count-1]` (resp. at
`0`), `select_prev` at `0` and `select_next` at `count-1` are no-ops,
`reset_selection` returns to `0`, and for a non-empty watchlist `current`
always yields the stock at the selected index. -/
theorem c4_selection_safe (a : App) (ops : List SelOp)
    (h : a.selected < a.stocks.length ∨ (a.stocks = [] ∧ a.selected = 0)) :
    ((a.applySels ops).selected < a.stocks.length ∨
      (a.stocks = [] ∧ (a.applySels ops).selected = 0)) ∧
    (a.applySels ops).stocks = a.stocks ∧
    (a.selected = 0 → a.select_prev = a) ∧
    (a.selected = a.stocks.length - 1 → a.select_next = a) ∧
    (a.reset_selection).selected = 0 ∧
    (a.stocks ≠ [] →
      ∃ s, (a.applySels ops).current = some s ∧
        (a.applySels ops).stocks[(a.applySels ops).selected]? = some s) := by
  have h' : a.selected < a.stocks.length ∨ (a.stocks.length = 0 ∧ a.selected = 0) := by
    rcases h with h | ⟨h1, h2⟩
    · exact Or.inl h
    · exact Or.inr ⟨by rw [h1]; rfl, h2⟩
  obtain ⟨hinv, hstocks⟩ := applySels_selected_inv a ops h'
  refine ⟨?_, hstocks, ?_, ?_, rfl, ?_⟩
  · rcases hinv with h1 | ⟨h1, h2⟩
    · exact Or.inl h1
    · exact Or.inr ⟨List.length_eq_zero.mp h1, h2⟩
  · intro h0
    unfold App.select_prev
    rw [h0]
    rfl
  · intro hlast
    have hmin : min (a.selected + 1) (a.stocks.length - 1) = a.selected := by
      rw [Nat.min_def]
      split <;> omega
    unfold App.select_next
    rw [hmin]
  · intro hne
    have hlen : a.stocks.length ≠ 0 := fun h0 => hne (List.length_eq_zero.mp h0)
    have hsel : (a.applySels ops).selected < (a.applySels ops).stocks.length := by
      rw [hstocks]
      rcases hinv with h1 | ⟨h1, _⟩
      · exact h1
      · exact absurd h1 hlen
    exact ⟨(a.applySels ops).stocks[(a.applySels ops).selected],
      List.getElem?_eq_getElem hsel, List.getElem?_eq_getElem hsel⟩

/-- Witness for C4: the real eight-stock app, a short navigation burst. -/
theorem c4_selection_safe_witness :
    ∃ s, ((App.new (fun _ => 1/2)).applySels [SelOp.next, SelOp.next, SelOp.prev,
      SelOp.reset]).current = some s ∧
      ((App.new (fun _ => 1/2)).applySels [SelOp.next, SelOp.next, SelOp.prev,
        SelOp.reset]).stocks[((App.new (fun _ => 1/2)).applySels [SelOp.next,
        SelOp.next, SelOp.prev, SelOp.reset]).selected]? = some s :=
  (c4_selection_safe (App.new (fun _ => 1/2))
      [SelOp.next, SelOp.next, SelOp.prev, SelOp.reset]
      (Or.inl (by norm_num [App.new]))).2.2.2.2.2
    (by simp [App.new])

/-- The joined banner string is empty exactly when the banner source list
is empty (every line contributes at least the three-space separator). -/
theorem joinedBanner_eq_nil_iff (banner : List (List Char)) :
    joinedBanner banner = [] ↔ banner = [] := by
  cases banner with
  | nil => simp [joinedBanner]
  | cons s rest => simp [joinedBanner, bannerSep]

/-- For a non-empty banner source, `banner_text` is the joined string
rotated left by the offset, with one extra trailing space. -/
theorem banner_text_eq_rotate (a : App) (h : a.banner ≠ []) :
    a.banner_text = (joinedBanner a.banner).rotate a.banner_offset ++ [' '] := by
  have hj : joinedBanner a.banner ≠ [] :=
    fun hh => h ((joinedBanner_eq_nil_iff a.banner).mp hh)
  have hne : (joinedBanner a.banner).isEmpty = false := List.isEmpty_eq_false.mpr hj
  simp only [App.banner_text, hne, Bool.false_eq_true, if_false]
  rw [List.rotate_eq_drop_append_take_mod]

/-- A minimal concrete app used to exercise the banner arithmetic. -/
def bannerDemo : App :=
  { stocks := [], selected := 0, headlines := [], banner := [['A']], banner_offset := 0,
    user := "", api_key := "", explorer_items := [], explorer_selected := 0, session := "" }

/-- C2 counterexample: with banner source `["A"]` and offset `0`, the
joined string is `"A   "` (length 4) but `banner_text` returns
`"A    "` (length 5) — the returned string is not the rotated window of
the concatenation's length, because of the appended trailing space. -/
theorem c2_banner_text_counterexample :
    bannerDemo.banner ≠ [] ∧
    bannerDemo.banner_text.length ≠ (joinedBanner bannerDemo.banner).length ∧
    bannerDemo.banner_text ≠
      (joinedBanner bannerDemo.banner).rotate bannerDemo.banner_offset := by
  decide

/-- C2 (amended): for an empty banner source `banner_text` returns the
sentinel; for a non-empty source it returns the cyclic window of the
joined string starting at `offset mod length` — character `i` of the
result is character `(i + offset) mod length` of the joined string —
followed by one extra trailing space (total length = joined length + 1). -/
theorem c2_banner_text_window (a : App) :
    (a.banner = [] → a.banner_text = "NO HEADLINES".toList) ∧
    (a.banner ≠ [] →
      (a.banner_text).length = (joinedBanner a.banner).length + 1 ∧
      (∀ i, i < (joinedBanner a.banner).length →
        (a.banner_text)[i]? =
          (joinedBanner a.banner)[(i + a.banner_offset) % (joinedBanner a.banner).length]?) ∧
      (a.banner_text)[(joinedBanner a.banner).length]? = some ' ') := by
  constructor
  · intro h
    have hnil : joinedBanner a.banner = [] := (joinedBanner_eq_nil_iff a.banner).mpr h
    simp only [App.banner_text, hnil]
    rfl
  · intro h
    rw [banner_text_eq_rotate a h]
    refine ⟨by simp, ?_, ?_⟩
    · intro i hi
      rw [List.getElem?_append_left (by simpa using hi), List.getElem?_rotate hi]
    · rw [List.getElem?_append_right (by simp)]
      simp

/-- Witness for C2 (amended) at the concrete demo app. -/
theorem c2_banner_text_window_witness :
    bannerDemo.banner_text.length = (joinedBanner bannerDemo.banner).length + 1 :=
  (((c2_banner_text_window bannerDemo).2 (by decide)).1)

/-- C3: for a fixed non-empty banner source, `banner_text` has the same
length at every offset, and advancing the offset by the full joined
length returns the original rotation. -/
theorem c3_banner_length_preserving_cyclic (a : App) (h : a.banner ≠ []) (o₁ o₂ : Nat) :
    ({ a with banner_offset := o₁ } : App).banner_text.length =
      ({ a with banner_offset := o₂ } : App).banner_text.length ∧
    ({ a with banner_offset := a.banner_offset + (joinedBanner a.banner).length } : App).banner_text
      = a.banner_text := by
  have key : ∀ o : Nat, ({ a with banner_offset := o } : App).banner_text =
      (joinedBanner a.banner).rotate o ++ [' '] := fun o =>
    banner_text_eq_rotate { a with banner_offset := o } h
  constructor
  · rw [key o₁, key o₂]
    simp
  · rw [key, banner_text_eq_rotate a h]
    congr 1
    rw [← List.rotate_mod, Nat.add_mod_right, List.rotate_mod]

/-- Witness for C3: offsets `0` and `7` on the real app give equal
banner lengths. -/
theorem c3_banner_length_preserving_cyclic_witness :
    ({ App.new (fun _ => 1/2) with banner_offset := 0 } : App).banner_text.length =
      ({ App.new (fun _ => 1/2) with banner_offset := 7 } : App).banner_text.length :=
  (c3_banner_length_preserving_cyclic (App.new (fun _ => 1/2))
    (by simp [App.new]) 0 7).1

/-- The per-instrument invariant of the simulation (bounded price floor,
positive previous close, consistent day range, bounded history, and
derived fields recomputed exactly). -/
def StockInv (s : Stock) : Prop :=
  1 ≤ s.price ∧ 0 < s.prev_close ∧
  s.day_range_low ≤ s.price ∧ s.price ≤ s.day_range_high ∧
  s.history.length ≤ HISTORY_LEN ∧
  s.change = s.price - s.prev_close ∧
  s.change_pct = s.change / s.prev_close * 100

/-- The seeding walk always produces exactly `n` samples. -/
theorem seedWalk_length (noise : Nat → ℚ) (val : ℚ) (n : Nat) :
    (seedWalk noise val n).length = n := by
  induction n generalizing noise val with
  | zero => rfl
  | succ n ih => simp [seedWalk, ih]

/-- Seeding at any price `≥ 1` establishes the invariant. -/
theorem seed_StockInv (sym nm : String) (p : ℚ) (noise : Nat → ℚ) (hp : 1 ≤ p) :
    StockInv (Stock.seed sym nm p noise) := by
  unfold StockInv Stock.seed
  refine ⟨hp, by linarith, by linarith, by linarith, ?_, rfl, rfl⟩
  rw [seedWalk_length]

/-- One simulation advance preserves the invariant and never touches
`prev_close`. -/
theorem update_StockInv (s : Stock) (d v : ℚ) (h : StockInv s) :
    StockInv (s.update d v) ∧ (s.update d v).prev_close = s.prev_close := by
  obtain ⟨h1, h2, h3, h4, h5, h6, h7⟩ := h
  have hprice : (s.update d v).price = max (s.price + d) 1 := rfl
  have hpc : (s.update d v).prev_close = s.prev_close := rfl
  have hlow : (s.update d v).day_range_low = min s.day_range_low (s.update d v).price := rfl
  have hhigh : (s.update d v).day_range_high = max s.day_range_high (s.update d v).price := rfl
  have hchange : (s.update d v).change = (s.update d v).price - s.prev_close := rfl
  have hcp : (s.update d v).change_pct = (s.update d v).change / s.prev_close * 100 := rfl
  have hhist : (s.update d v).history =
      if HISTORY_LEN < (s.history ++ [(s.update d v).price]).length
      then (s.history ++ [(s.update d v).price]).tail
      else s.history ++ [(s.update d v).price] := rfl
  unfold StockInv
  refine ⟨⟨?_, ?_, ?_, ?_, ?_, ?_, ?_⟩, hpc⟩
  · rw [hprice]; exact le_max_right _ _
  · rw [hpc]; exact h2
  · rw [hlow]; exact min_le_right _ _
  · rw [hhigh]; exact le_max_right _ _
  · rw [hhist]
    by_cases hc : HISTORY_LEN < (s.history ++ [(s.update d v).price]).length
    · rw [if_pos hc, List.length_tail, List.length_append]
      simp only [List.length_singleton]
      omega
    · rw [if_neg hc]
      rw [List.length_append] at hc
      simp only [List.length_singleton] at hc
      rw [List.length_append]
      simp only [List.length_singleton]
      omega
  · rw [hchange, hpc]
  · rw [hcp, hpc]

/-- Every element produced by the update loop is an update of an element
of the input list. -/
theorem mem_updateStocks (draw : Nat → ℚ × ℚ) (i : Nat) (l : List Stock) (t : Stock)
    (h : t ∈ updateStocks draw i l) :
    ∃ s ∈ l, ∃ j, t = s.update (draw j).1 (draw j).2 := by
  induction l generalizing i with
  | nil => simp [updateStocks] at h
  | cons x rest ih =>
    simp only [updateStocks, List.mem_cons] at h
    rcases h with h | h
    · exact ⟨x, List.mem_cons_self x rest, i, h⟩
    · obtain ⟨s, hs, j, hj⟩ := ih (i + 1) h
      exact ⟨s, List.mem_cons_of_mem x hs, j, hj⟩

/-- The update loop preserves the number of stocks. -/
theorem updateStocks_length (draw : Nat → ℚ × ℚ) (l : List Stock) :
    ∀ i, (updateStocks draw i l).length = l.length := by
  induction l with
  | nil => intro i; rfl
  | cons x rest ih => intro i; simp [updateStocks, ih (i + 1)]

/-- Element `i` of the updated stock list is the update of element `i`
of the input, consuming draw `j + i`. -/
theorem updateStocks_getElem? (draw : Nat → ℚ × ℚ) (l : List Stock) :
    ∀ (i j : Nat), (updateStocks draw j l)[i]? =
      (l[i]?).map (fun s => s.update (draw (j + i)).1 (draw (j + i)).2) := by
  induction l with
  | nil => intro i j; simp [updateStocks]
  | cons x rest ih =>
    intro i j
    cases i with
    | zero => simp [updateStocks]
    | succ i =>
      simp only [updateStocks, List.getElem?_cons_succ]
      rw [ih i (j + 1), show j + 1 + i = j + (i + 1) from by omega]

/-- Any number of `update_prices` ticks preserves the invariant on every
stock. -/
theorem simulate_StockInv (a : App) (draws : List (Nat → ℚ × ℚ))
    (h : ∀ s ∈ a.stocks, StockInv s) :
    ∀ s ∈ (a.simulate draws).stocks, StockInv s := by
  induction draws generalizing a with
  | nil => exact h
  | cons f fs ih =>
    have hstep : ∀ s ∈ (a.update_prices f).stocks, StockInv s := by
      intro t ht
      obtain ⟨s, hs, j, hj⟩ := mem_updateStocks f 0 a.stocks t ht
      subst hj
      exact (update_StockInv s _ _ (h s hs)).1
    exact ih (a.update_prices f) hstep

/-- Any number of ticks preserves the number of stocks. -/
theorem simulate_stocks_length (a : App) (draws : List (Nat → ℚ × ℚ)) :
    (a.simulate draws).stocks.length = a.stocks.length := by
  induction draws generalizing a with
  | nil => rfl
  | cons f fs ih =>
    have hstep : (a.update_prices f).stocks.length = a.stocks.length :=
      updateStocks_length f a.stocks 0
    rw [show a.simulate (f :: fs) = (a.update_prices f).simulate fs from rfl,
      ih (a.update_prices f), hstep]

/-- Field `prev_close` of every slot is unchanged by any number of ticks. -/
theorem simulate_prev_close (a : App) (draws : List (Nat → ℚ × ℚ)) (i : Nat) :
    ((a.simulate draws).stocks[i]?).map Stock.prev_close =
      (a.stocks[i]?).map Stock.prev_close := by
  induction draws generalizing a with
  | nil => rfl
  | cons f fs ih =>
    have hstep : ((a.update_prices f).stocks[i]?).map Stock.prev_close =
        (a.stocks[i]?).map Stock.prev_close := by
      show ((updateStocks f 0 a.stocks)[i]?).map Stock.prev_close = _
      rw [updateStocks_getElem? f a.stocks i 0]
      cases a.stocks[i]? with
      | none => rfl
      | some s => rfl
    rw [show a.simulate (f :: fs) = (a.update_prices f).simulate fs from rfl,
      ih (a.update_prices f), hstep]

/-- C1: starting from any collection of seeded instruments (seed price
`≥ 1`, as all eight watchlist seeds are) and after any number of
`update_prices` ticks: the price never falls below the `1.0` floor, the
day range brackets the price, the history stays within `HISTORY_LEN`,
`change` and `change_pct` are exactly recomputed from `price` and
`prev_close`, `prev_close` stays positive (so the division is always
well-defined), and `prev_close` of every slot is never mutated. -/
theorem c1_simulation_invariants (a : App) (draws : List (Nat → ℚ × ℚ))
    (hseed : ∀ s ∈ a.stocks,
      ∃ sym nm p noise, 1 ≤ p ∧ s = Stock.seed sym nm p noise) :
    (a.simulate draws).stocks.length = a.stocks.length ∧
    (∀ s ∈ (a.simulate draws).stocks,
      1 ≤ s.price ∧ 0 < s.prev_close ∧
      s.day_range_low ≤ s.price ∧ s.price ≤ s.day_range_high ∧
      s.history.length ≤ HISTORY_LEN ∧
      s.change = s.price - s.prev_close ∧
      s.change_pct = s.change / s.prev_close * 100) ∧
    (∀ i : Nat, ((a.simulate draws).stocks[i]?).map Stock.prev_close =
      (a.stocks[i]?).map Stock.prev_close) := by
  have hinv : ∀ s ∈ a.stocks, StockInv s := by
    intro s hs
    obtain ⟨sym, nm, p, noise, hp, rfl⟩ := hseed s hs
    exact seed_StockInv sym nm p noise hp
  refine ⟨simulate_stocks_length a draws, ?_, fun i => simulate_prev_close a draws i⟩
  intro s hs
  have := simulate_StockInv a draws hinv s hs
  unfold StockInv at this
  exact this

/-- Witness for C1: the real eight-stock app after one tick. -/
theorem c1_simulation_invariants_witness :
    (((App.new (fun _ => 1/2)).simulate [fun _ => (-1, 50000)]).stocks[0]?).map
      Stock.prev_close =
    ((App.new (fun _ => 1/2)).stocks[0]?).map Stock.prev_close :=
  (c1_simulation_invariants (App.new (fun _ => 1/2)) [fun _ => (-1, 50000)]
    (by
      intro s hs
      simp only [App.new, List.mem_cons, List.not_mem_nil, or_false] at hs
      rcases hs with rfl | rfl | rfl | rfl | rfl | rfl | rfl | rfl <;>
        exact ⟨_, _, _, _, by norm_num, rfl⟩)).2.2 0

/-- The last `n` elements of a list (the suffix kept by the FIFO). -/
def lastN (n : Nat) (l : List ℚ) : List ℚ := l.drop (l.length - n)

/-- Taking `lastN` of an append only depends on the last `n` elements of the
left part. -/
theorem lastN_append_lastN (n : Nat) (l r : List ℚ) :
    lastN n (lastN n l ++ r) = lastN n (l ++ r) := by
  by_cases hl : l.length ≤ n
  · have h0 : l.length - n = 0 := by omega
    unfold lastN
    rw [h0, List.drop_zero]
  · have hblen : (l.drop (l.length - n)).length = n := by
      rw [List.length_drop]; omega
    have halen : (l.take (l.length - n)).length = l.length - n := by
      rw [List.length_take]; omega
    unfold lastN
    conv_rhs => rw [← List.take_append_drop (l.length - n) l]
    rw [List.append_assoc]
    have harith : (l.take (l.length - n) ++ (l.drop (l.length - n) ++ r)).length - n =
        (l.take (l.length - n)).length + ((l.drop (l.length - n) ++ r).length - n) := by
      rw [List.length_append, List.length_append, halen, hblen]
      omega
    rw [harith, List.drop_append]

/-- One update turns the (bounded) history into the last `HISTORY_LEN`
elements of the history with the new price appended. -/
theorem update_history (s : Stock) (d v : ℚ) (h : s.history.length ≤ HISTORY_LEN) :
    (s.update d v).history = lastN HISTORY_LEN (s.history ++ [(s.update d v).price]) ∧
    (s.update d v).history.length ≤ HISTORY_LEN := by
  have hhist : (s.update d v).history =
      if HISTORY_LEN < (s.history ++ [(s.update d v).price]).length
      then (s.history ++ [(s.update d v).price]).tail
      else s.history ++ [(s.update d v).price] := rfl
  have hlen : (s.history ++ [(s.update d v).price]).length = s.history.length + 1 := by
    rw [List.length_append]; rfl
  by_cases hc : HISTORY_LEN < (s.history ++ [(s.update d v).price]).length
  · have heq : (s.update d v).history = (s.history ++ [(s.update d v).price]).tail := by
      rw [hhist, if_pos hc]
    constructor
    · rw [heq,
        show (s.history ++ [(s.update d v).price]).tail =
          (s.history ++ [(s.update d v).price]).drop 1 from
          (List.drop_one _).symm]
      unfold lastN
      congr 1
      omega
    · rw [heq, List.length_tail]
      omega
  · have heq : (s.update d v).history = s.history ++ [(s.update d v).price] := by
      rw [hhist, if_neg hc]
    constructor
    · rw [heq]
      unfold lastN
      rw [show (s.history ++ [(s.update d v).price]).length - HISTORY_LEN = 0 from by omega,
        List.drop_zero]
    · rw [heq]
      omega

/-- Trace `pricesTrace` has one entry per draw. -/
theorem pricesTrace_length (s : Stock) (ds : List (ℚ × ℚ)) :
    (s.pricesTrace ds).length = ds.length := by
  induction ds generalizing s with
  | nil => rfl
  | cons d ds ih => simp [Stock.pricesTrace, ih]

/-- After any run of updates from a bounded history, the history is the
last `HISTORY_LEN` elements of the original history followed by the
pushed prices. -/
theorem updMany_history (s : Stock) (ds : List (ℚ × ℚ)) (h : s.history.length ≤ HISTORY_LEN) :
    (s.updMany ds).history = lastN HISTORY_LEN (s.history ++ s.pricesTrace ds) ∧
    (s.updMany ds).history.length ≤ HISTORY_LEN := by
  induction ds generalizing s with
  | nil =>
    constructor
    · unfold lastN
      rw [show s.pricesTrace [] = ([] : List ℚ) from rfl, List.append_nil,
        show s.history.length - HISTORY_LEN = 0 from by omega, List.drop_zero]
      rfl
    · exact h
  | cons d ds ih =>
    obtain ⟨hs1, hlen1⟩ := update_history s d.1 d.2 h
    obtain ⟨ih1, ih2⟩ := ih (s.update d.1 d.2) hlen1
    have hmany : s.updMany (d :: ds) = (s.update d.1 d.2).updMany ds := rfl
    have htrace : s.pricesTrace (d :: ds) =
        (s.update d.1 d.2).price :: (s.update d.1 d.2).pricesTrace ds := rfl
    constructor
    · rw [hmany, ih1, hs1, lastN_append_lastN, htrace, List.append_assoc]
      rfl
    · rw [hmany]
      exact ih2

/-- C7: pushing more than `HISTORY_LEN` prices through repeated updates
leaves the history holding exactly the most recent `HISTORY_LEN` pushed
prices, oldest first. -/
theorem c7_history_fifo (s : Stock) (ds : List (ℚ × ℚ))
    (hh : s.history.length ≤ HISTORY_LEN) (hN : HISTORY_LEN < ds.length) :
    (s.updMany ds).history.length = HISTORY_LEN ∧
    (s.updMany ds).history =
      (s.pricesTrace ds).drop (ds.length - HISTORY_LEN) := by
  obtain ⟨heq, hle⟩ := updMany_history s ds hh
  have htl : (s.pricesTrace ds).length = ds.length := pricesTrace_length s ds
  have heq2 : (s.updMany ds).history =
      (s.pricesTrace ds).drop (ds.length - HISTORY_LEN) := by
    rw [heq]
    unfold lastN
    rw [List.length_append, htl,
      show s.history.length + ds.length - HISTORY_LEN =
        s.history.length + (ds.length - HISTORY_LEN) from by omega,
      List.drop_append]
  refine ⟨?_, heq2⟩
  rw [heq2, List.length_drop, htl]
  omega

/-- A minimal concrete stock with an empty history, used as a witness. -/
def stockDemo : Stock :=
  { symbol := "T", name := "T", price := 1, prev_close := 1, change := 0,
    change_pct := 0, volume := 0, vwap := 1, «open» := 1,
    day_range_low := 1, day_range_high := 1, history := [] }

/-- Witness for C7: 65 pushes into an empty history leave exactly 64. -/
theorem c7_history_fifo_witness :
    (stockDemo.updMany (List.replicate 65 ((0 : ℚ), (0 : ℚ)))).history.length =
      HISTORY_LEN :=
  (c7_history_fifo stockDemo (List.replicate 65 ((0 : ℚ), (0 : ℚ)))
    (by decide) (by decide)).1
